import Mathlib

/-!
Shallow embedding of the algorithmic core of the `ctrlpluspen` repository:
`scripts/evaluate.py` (greedy IoU matching, precision/recall, AP, mAP,
CER/WER) and `scripts/postprocess.py` (line clustering and text merging).
Python numbers (ints and floats) are modelled as rationals; Python lists as
`List`; fallible calls as `Except`.
-/

/-- A box `[x1, y1, x2, y2]` as used throughout `scripts/evaluate.py`. -/
structure Box where
  x1 : ℚ
  y1 : ℚ
  x2 : ℚ
  y2 : ℚ
deriving DecidableEq

/-- `calculate_iou` from `scripts/evaluate.py` (lines 18–39). -/
def calculate_iou (box1 box2 : Box) : ℚ :=
  let x1_i := max box1.x1 box2.x1
  let y1_i := max box1.y1 box2.y1
  let x2_i := min box1.x2 box2.x2
  let y2_i := min box1.y2 box2.y2
  if x2_i ≤ x1_i ∨ y2_i ≤ y1_i then 0
  else
    let intersection := (x2_i - x1_i) * (y2_i - y1_i)
    let area1 := (box1.x2 - box1.x1) * (box1.y2 - box1.y1)
    let area2 := (box2.x2 - box2.x1) * (box2.y2 - box2.y1)
    let union := area1 + area2 - intersection
    if 0 < union then intersection / union else 0

/-- A prediction record `{'box': ..., 'confidence': ...}`. -/
structure PredBox where
  box : Box
  confidence : ℚ
deriving DecidableEq

/-- One step of the best-ground-truth search of `evaluate_detection`
(`scripts/evaluate.py` lines 99–109): the fold runs over the enumerated
ground-truth/matched pairs, skips already-matched entries and keeps the
strictly best IoU seen so far; the initial accumulator is `(0.0, -1)`. -/
def bestStep (pb : Box) (acc : ℚ × ℤ) (x : ℕ × Box × Bool) : ℚ × ℤ :=
  if x.2.2 then acc
  else if acc.1 < calculate_iou pb x.2.1 then (calculate_iou pb x.2.1, (x.1 : ℤ)) else acc

/-- The `best_iou` / `best_gt_idx` search of `evaluate_detection`. -/
def bestMatch (pb : Box) (gts : List Box) (matched : List Bool) : ℚ × ℤ :=
  ((gts.zip matched).enum).foldl (bestStep pb) (0, -1)

/-- `gt_matched[best_gt_idx] = True` with Python indexing semantics:
a negative index counts from the end of the list (so `-1` is the last
entry). -/
def setMatched (matched : List Bool) (idx : ℤ) : List Bool :=
  if 0 ≤ idx then matched.set idx.toNat true
  else matched.set ((matched.length : ℤ) + idx).toNat true

/-- The per-prediction matching loop of `evaluate_detection`
(`scripts/evaluate.py` lines 95–117), producing the `tp` flag list (the
`fp` list is its pointwise complement) and the final `gt_matched` state. -/
def matchLoop (τ : ℚ) (gts : List Box) : List PredBox → List Bool → List Bool × List Bool
  | [], matched => ([], matched)
  | p :: rest, matched =>
    let b := bestMatch p.box gts matched
    if τ ≤ b.1 then
      let r := matchLoop τ gts rest (setMatched matched b.2)
      (true :: r.1, r.2)
    else
      let r := matchLoop τ gts rest matched
      (false :: r.1, r.2)

/-- `sorted(predictions, key=lambda x: x.get('confidence', 0), reverse=True)`:
a stable sort by descending confidence. -/
def sortPreds (preds : List PredBox) : List PredBox :=
  preds.mergeSort (fun a b => decide (b.confidence ≤ a.confidence))

/-- The `tp` flag sequence computed by `evaluate_detection` on non-empty
inputs. -/
def tpFlags (preds : List PredBox) (gts : List Box) (τ : ℚ) : List Bool :=
  (matchLoop τ gts (sortPreds preds) (List.replicate gts.length false)).1

/-- The `'true_positives': int(sum(tp))` entry of the dictionary returned
by `evaluate_detection` (`scripts/evaluate.py` line 145). -/
def truePositives (preds : List PredBox) (gts : List Box) (τ : ℚ) : ℕ :=
  (tpFlags preds gts τ).count true

/-- `np.cumsum` over a 0/1 flag list, starting from `acc`. -/
def cumCounts (acc : ℕ) : List Bool → List ℕ
  | [] => []
  | b :: rest =>
    let acc2 := acc + (if b then 1 else 0)
    acc2 :: cumCounts acc2 rest

/-- `precisions = tp_cumsum / (tp_cumsum + fp_cumsum)`
(`scripts/evaluate.py` line 124). -/
def precisionsOf (tp : List Bool) : List ℚ :=
  List.zipWith (fun (t f : ℕ) => (t : ℚ) / ((t : ℚ) + (f : ℚ)))
    (cumCounts 0 tp) (cumCounts 0 (tp.map (!·)))

/-- `recalls = tp_cumsum / num_gt` (`scripts/evaluate.py` line 125). -/
def recallsOf (tp : List Bool) (numGt : ℕ) : List ℚ :=
  (cumCounts 0 tp).map (fun (t : ℕ) => (t : ℚ) / (numGt : ℚ))

/-- The backwards running-maximum loop of `calculate_ap`
(`scripts/evaluate.py` lines 49–50): `p[i] = max(p[i], p[i+1])`,
iterated from the end of the list toward the start. -/
def monoEnv : List ℚ → List ℚ
  | [] => []
  | [x] => [x]
  | x :: y :: rest =>
    match monoEnv (y :: rest) with
    | [] => [x]
    | z :: zs => max x z :: z :: zs

/-- The summation loop of `calculate_ap` (`scripts/evaluate.py` lines
53–56): add `(recall[i] - recall[i-1]) * precision[i]` whenever the recall
changed; `rprev` is `recall[i-1]`. -/
def apSum (rprev : ℚ) : List (ℚ × ℚ) → ℚ
  | [] => 0
  | (r, p) :: rest => (if r ≠ rprev then (r - rprev) * p else 0) + apSum r rest

/-- `calculate_ap` from `scripts/evaluate.py` (lines 42–58): sentinel
padding, monotone envelope, all-point interpolated sum. -/
def calculate_ap (precisions recalls : List ℚ) : ℚ :=
  let ps := monoEnv ((0 : ℚ) :: precisions ++ [0])
  let rs := (0 : ℚ) :: recalls ++ [1]
  apSum 0 (rs.zip ps).tail

/-- The four headline metrics of the dictionary returned by
`evaluate_detection`.  The raw counts (`true_positives` …) are exposed by
`truePositives` separately, because the early-return branches of the
Python function omit them. -/
structure DetResult where
  precision : ℚ
  «recall» : ℚ
  ap : ℚ
  f1 : ℚ
deriving DecidableEq

/-- `evaluate_detection` from `scripts/evaluate.py` (lines 61–148). -/
def evaluate_detection (preds : List PredBox) (gts : List Box) (τ : ℚ) : DetResult :=
  if preds.isEmpty && gts.isEmpty then ⟨1, 1, 1, 1⟩
  else if preds.isEmpty then ⟨0, 0, 0, 0⟩
  else if gts.isEmpty then ⟨0, 0, 0, 0⟩
  else
    let tp := tpFlags preds gts τ
    let precisions := precisionsOf tp
    let recalls := recallsOf tp gts.length
    let ap := calculate_ap precisions recalls
    let p := (precisions.getLast?).getD 0
    let r := (recalls.getLast?).getD 0
    let f1 := if 0 < p + r then 2 * p * r / (p + r) else 0
    ⟨p, r, ap, f1⟩

/-- The dictionary returned by `calculate_map`. -/
structure MapResult where
  map50 : ℚ
  map5095 : ℚ
  ap_per : List (ℚ × ℚ)
deriving DecidableEq

/-- The default `iou_thresholds` list of `calculate_map`
(`scripts/evaluate.py` line 168). -/
def defaultIouThresholds : List ℚ :=
  [1/2, 11/20, 3/5, 13/20, 7/10, 3/4, 4/5, 17/20, 9/10, 19/20]

/-- `calculate_map` from `scripts/evaluate.py` (lines 151–195).  The
Python dictionary keyed by the formatted string `AP@{t:.2f}` is modelled
as an association list keyed by the threshold value itself (collisions of
the two-decimal formatting between distinct thresholds are not
modelled); `aps.get('AP@0.50', 0.0)` becomes a lookup of `1/2` with
default `0`. -/
def calculate_map (allPreds : List (List PredBox)) (allGts : List (List Box))
    (thresholds : List ℚ) : MapResult :=
  let preds := allPreds.flatten
  let gts := allGts.flatten
  let aps := thresholds.map (fun t => (t, (evaluate_detection preds gts t).ap))
  let map50 := (aps.lookup (1/2)).getD 0
  let vals := thresholds.map (fun t => (aps.lookup t).getD 0)
  let map5095 := vals.sum / (vals.length : ℚ)
  ⟨map50, map5095, aps⟩

/-- Unit-cost edit distance between two lists: the semantics of
`editdistance.eval` as called by `calculate_cer` and `calculate_wer`
(`scripts/evaluate.py` lines 210 and 234) — cost 1 for insertion,
deletion and substitution, 0 for a matching element. -/
def editDist {α : Type} [DecidableEq α] : List α → List α → ℕ
  | [], ys => ys.length
  | x :: xs, [] => (x :: xs).length
  | x :: xs, y :: ys =>
    min (1 + editDist xs (y :: ys))
      (min (1 + editDist (x :: xs) ys)
        ((if x = y then 0 else 1) + editDist xs ys))
termination_by xs ys => xs.length + ys.length

/-- `calculate_cer` from `scripts/evaluate.py` (lines 198–211):
`if not ground_truth: return 0.0 if not prediction else 1.0`, otherwise
character-level edit distance divided by the reference length. -/
def calculate_cer (prediction ground_truth : String) : ℚ :=
  if ground_truth = "" then (if prediction = "" then 0 else 1)
  else (editDist prediction.toList ground_truth.toList : ℚ) / (ground_truth.length : ℚ)

/-- `calculate_wer` from `scripts/evaluate.py` (lines 214–235), modelled
by its fallback branch: word-level unit-cost edit distance over
whitespace-split words divided by the reference word count.  (`str.split`
with no argument is modelled as splitting on single spaces and dropping
empty tokens; the `jiwer` branch is an external library.  No claim
depends on the value of this function on non-trivial input.) -/
def calculate_wer (prediction ground_truth : String) : ℚ :=
  let pred_words := (prediction.splitOn " ").filter (· ≠ "")
  let gt_words := (ground_truth.splitOn " ").filter (· ≠ "")
  if gt_words = [] then (if pred_words = [] then 0 else 1)
  else (editDist pred_words gt_words : ℚ) / (gt_words.length : ℚ)

/-- The fields of the dictionary returned by `evaluate_ocr` that involve
no irrational arithmetic; the `CER_std`/`WER_std` fields (a square root,
via `np.std`) are not modelled and no claim mentions them. -/
structure OcrResult where
  CER : ℚ
  WER : ℚ
  num_samples : ℕ
  per_sample : List (ℚ × ℚ × String × String)
deriving DecidableEq

/-- `evaluate_ocr` from `scripts/evaluate.py` (lines 238–275).  The
`raise ValueError` on a length mismatch is modelled as `Except.error`. -/
def evaluate_ocr (predictions ground_truths : List String) : Except String OcrResult :=
  if predictions.length ≠ ground_truths.length then
    .error "Predictions and ground truths must have same length"
  else if predictions = [] then
    .ok ⟨0, 0, 0, []⟩
  else
    let pairs := predictions.zip ground_truths
    let cers := pairs.map (fun pg => calculate_cer pg.1 pg.2)
    let wers := pairs.map (fun pg => calculate_wer pg.1 pg.2)
    .ok ⟨cers.sum / (cers.length : ℚ), wers.sum / (wers.length : ℚ),
      predictions.length,
      pairs.map (fun pg => (calculate_cer pg.1 pg.2, calculate_wer pg.1 pg.2, pg.1, pg.2))⟩

/-- `DetectionBox` from `scripts/postprocess.py` (lines 17–28).
Coordinates are Python ints; `line_id` starts as `-1`. -/
structure DetectionBox where
  id : ℤ
  x1 : ℤ
  y1 : ℤ
  x2 : ℤ
  y2 : ℤ
  confidence : ℚ
  ocr_text : String := ""
  ocr_confidence : ℚ := 0
  line_id : ℤ := -1
deriving DecidableEq

/-- `DetectionBox.center_x` (`scripts/postprocess.py` lines 30–32). -/
def DetectionBox.center_x (b : DetectionBox) : ℚ := ((b.x1 + b.x2 : ℤ) : ℚ) / 2

/-- `DetectionBox.center_y` (`scripts/postprocess.py` lines 34–36). -/
def DetectionBox.center_y (b : DetectionBox) : ℚ := ((b.y1 + b.y2 : ℤ) : ℚ) / 2

/-- `DetectionBox.width` (`scripts/postprocess.py` lines 38–40). -/
def DetectionBox.width (b : DetectionBox) : ℤ := b.x2 - b.x1

/-- `DetectionBox.height` (`scripts/postprocess.py` lines 42–44). -/
def DetectionBox.height (b : DetectionBox) : ℤ := b.y2 - b.y1

/-- `DetectionBox.vertical_overlap` (`scripts/postprocess.py` lines
46–50), with its `min_height > 0` division guard. -/
def DetectionBox.vertical_overlap (b o : DetectionBox) : ℚ :=
  let y_overlap : ℤ := max 0 (min b.y2 o.y2 - max b.y1 o.y1)
  let min_height : ℤ := min b.height o.height
  if 0 < min_height then (y_overlap : ℚ) / (min_height : ℚ) else 0

/-- A raw detection record as consumed by `parse_detections`: every field
is read with `.get(...)` and a default, so each is optional.  The `box`
entry defaults to `[0, 0, 0, 0]`. -/
structure RawDet where
  id : Option ℤ
  box : Option (ℤ × ℤ × ℤ × ℤ)
  confidence : Option ℚ
  ocr_text : Option String
  ocr_confidence : Option ℚ
deriving DecidableEq

/-- `parse_detections` from `scripts/postprocess.py` (lines 62–82); the
counter `n` models `len(boxes)`, the default for a missing `id`. -/
def parse_detections (dets : List RawDet) : List DetectionBox :=
  go 0 dets
where
  go (n : ℕ) : List RawDet → List DetectionBox
    | [] => []
    | d :: rest =>
      let bc := d.box.getD (0, 0, 0, 0)
      { id := d.id.getD n, x1 := bc.1, y1 := bc.2.1, x2 := bc.2.2.1, y2 := bc.2.2.2,
        confidence := d.confidence.getD 0,
        ocr_text := d.ocr_text.getD "",
        ocr_confidence := d.ocr_confidence.getD 0 } :: go (n + 1) rest

/-- `sorted(boxes, key=lambda b: b.center_y)`: a stable ascending sort by
vertical center (`scripts/postprocess.py` line 103). -/
def sortByCenterY (boxes : List DetectionBox) : List DetectionBox :=
  boxes.mergeSort (fun a b => decide (a.center_y ≤ b.center_y))

/-- The inner scan of `group_into_lines` (`scripts/postprocess.py` lines
117–126): walk the whole sorted list, adding each not-yet-used box to the
current line when it vertically overlaps (by at least `τ`) some box
already in the line, and recording its id as used. -/
def addOthers (τ : ℚ) :
    List DetectionBox → List DetectionBox → List ℤ → List DetectionBox × List ℤ
  | [], line, used => (line, used)
  | o :: rest, line, used =>
    if o.id ∈ used then addOthers τ rest line used
    else if line.any (fun lb => τ ≤ lb.vertical_overlap o) then
      addOthers τ rest (line ++ [o]) (o.id :: used)
    else addOthers τ rest line used

/-- The outer scan of `group_into_lines` (`scripts/postprocess.py` lines
108–130): each not-yet-used box starts a new line, the line is grown by
`addOthers` over the whole sorted list `all`, and is then sorted
left-to-right by horizontal center. -/
def groupOuter (τ : ℚ) (all : List DetectionBox) :
    List DetectionBox → List ℤ → List (List DetectionBox)
  | [], _ => []
  | b :: rest, used =>
    if b.id ∈ used then groupOuter τ all rest used
    else
      let r := addOthers τ all [b] (b.id :: used)
      (r.1.mergeSort (fun a c => decide (a.center_x ≤ c.center_x)))
        :: groupOuter τ all rest r.2

/-- `group_into_lines` from `scripts/postprocess.py` (lines 85–140):
cluster, sort each line left-to-right, sort the lines top-to-bottom by
mean vertical center, then write each line's index into the `line_id`
field of its boxes. -/
def group_into_lines (boxes : List DetectionBox) (τ : ℚ) : List (List DetectionBox) :=
  if boxes = [] then []
  else
    let sorted_boxes := sortByCenterY boxes
    let lines := groupOuter τ sorted_boxes sorted_boxes []
    let lines2 := lines.mergeSort (fun l1 l2 =>
      decide ((l1.map DetectionBox.center_y).sum / (l1.length : ℚ) ≤
        (l2.map DetectionBox.center_y).sum / (l2.length : ℚ)))
    lines2.enum.map (fun il => il.2.map (fun b => { b with line_id := (il.1 : ℤ) }))

/-- The pairwise gap scan of `merge_line_text` (`scripts/postprocess.py`
lines 165–174): a space is emitted before a box's text exactly when the
gap to the previous box strictly exceeds `space_pixels`. -/
def lineParts (space_pixels : ℚ) : DetectionBox → List DetectionBox → List String
  | _, [] => []
  | prev, b :: rest =>
    (if space_pixels < ((b.x1 - prev.x2 : ℤ) : ℚ) then [" ", b.ocr_text] else [b.ocr_text])
      ++ lineParts space_pixels b rest

/-- `merge_line_text` from `scripts/postprocess.py` (lines 143–176). -/
def merge_line_text (line : List DetectionBox) (space_threshold : ℚ) : String :=
  match line with
  | [] => ""
  | b :: rest =>
    let avg_height : ℚ := (((line.map DetectionBox.height).sum : ℤ) : ℚ) / (line.length : ℚ)
    let space_pixels := avg_height * space_threshold
    String.join (b.ocr_text :: lineParts space_pixels b rest)

/-! ### Lemmas about `editDist` -/

theorem editDist_nil_left {α : Type} [DecidableEq α] (ys : List α) :
    editDist [] ys = ys.length := by
  simp [editDist]

theorem editDist_nil_right {α : Type} [DecidableEq α] (xs : List α) :
    editDist xs [] = xs.length := by
  cases xs <;> simp [editDist]

theorem editDist_cons_cons {α : Type} [DecidableEq α] (x y : α) (xs ys : List α) :
    editDist (x :: xs) (y :: ys) =
      min (1 + editDist xs (y :: ys))
        (min (1 + editDist (x :: xs) ys)
          ((if x = y then 0 else 1) + editDist xs ys)) := by
  simp [editDist]

theorem editDist_delete_le {α : Type} [DecidableEq α] (x : α) (xs ys : List α) :
    editDist (x :: xs) ys ≤ 1 + editDist xs ys := by
  cases ys with
  | nil =>
    simp only [editDist_nil_right, List.length_cons]
    omega
  | cons y ys =>
    rw [editDist_cons_cons]
    exact min_le_left _ _

theorem editDist_ins_le {α : Type} [DecidableEq α] (y : α) (xs ys : List α) :
    editDist xs (y :: ys) ≤ 1 + editDist xs ys := by
  cases xs with
  | nil =>
    simp only [editDist_nil_left, List.length_cons]
    omega
  | cons x xs =>
    rw [editDist_cons_cons]
    exact le_trans (min_le_right _ _) (min_le_left _ _)

theorem editDist_le_cons_right {α : Type} [DecidableEq α] (y : α) (xs ys : List α) :
    editDist xs ys ≤ 1 + editDist xs (y :: ys) := by
  induction xs with
  | nil =>
    simp only [editDist_nil_left, List.length_cons]
    omega
  | cons x xs ih =>
    rw [editDist_cons_cons]
    have h1 := editDist_delete_le x xs ys
    have hc : (if x = y then 0 else 1) = 0 ∨ (if x = y then 0 else 1) = 1 := by
      split <;> simp
    rcases min_choice (1 + editDist xs (y :: ys))
        (min (1 + editDist (x :: xs) ys) ((if x = y then 0 else 1) + editDist xs ys)) with
      h | h <;>
    rcases min_choice (1 + editDist (x :: xs) ys)
        ((if x = y then 0 else 1) + editDist xs ys) with h2 | h2 <;>
    omega

theorem editDist_le_cons_left {α : Type} [DecidableEq α] (x : α) (xs ys : List α) :
    editDist xs ys ≤ 1 + editDist (x :: xs) ys := by
  induction ys with
  | nil =>
    simp only [editDist_nil_right, List.length_cons]
    omega
  | cons y ys ih =>
    rw [editDist_cons_cons]
    have h1 := editDist_ins_le y xs ys
    have hc : (if x = y then 0 else 1) = 0 ∨ (if x = y then 0 else 1) = 1 := by
      split <;> simp
    rcases min_choice (1 + editDist xs (y :: ys))
        (min (1 + editDist (x :: xs) ys) ((if x = y then 0 else 1) + editDist xs ys)) with
      h | h <;>
    rcases min_choice (1 + editDist (x :: xs) ys)
        ((if x = y then 0 else 1) + editDist xs ys) with h2 | h2 <;>
    omega

theorem editDist_cons_same {α : Type} [DecidableEq α] (x : α) (xs ys : List α) :
    editDist (x :: xs) (x :: ys) = editDist xs ys := by
  rw [editDist_cons_cons, if_pos rfl]
  have h1 := editDist_le_cons_right x xs ys
  have h2 := editDist_le_cons_left x xs ys
  rcases min_choice (1 + editDist xs (x :: ys))
      (min (1 + editDist (x :: xs) ys) (0 + editDist xs ys)) with h | h <;>
  rcases min_choice (1 + editDist (x :: xs) ys) (0 + editDist xs ys) with h3 | h3 <;>
  omega

theorem editDist_self {α : Type} [DecidableEq α] (xs : List α) : editDist xs xs = 0 := by
  induction xs with
  | nil => simp [editDist]
  | cons x xs ih => rw [editDist_cons_same]; exact ih

theorem editDist_eq_zero_iff {α : Type} [DecidableEq α] (xs : List α) :
    ∀ ys, (editDist xs ys = 0 ↔ xs = ys) := by
  induction xs with
  | nil =>
    intro ys
    cases ys <;> simp [editDist_nil_left]
  | cons x xs ih =>
    intro ys
    cases ys with
    | nil => simp [editDist_nil_right]
    | cons y ys =>
      rw [editDist_cons_cons]
      constructor
      · intro h
        have hm1 := Nat.min_le_right (1 + editDist (x :: xs) ys)
          ((if x = y then 0 else 1) + editDist xs ys)
        have hm2 := Nat.min_le_right (1 + editDist xs (y :: ys))
          (min (1 + editDist (x :: xs) ys) ((if x = y then 0 else 1) + editDist xs ys))
        have h3 : (if x = y then 0 else 1) + editDist xs ys = 0 := by omega
        by_cases hxy : x = y
        · rw [if_pos hxy] at h3
          have := (ih ys).mp (by omega)
          simp [hxy, this]
        · rw [if_neg hxy] at h3
          omega
      · intro h
        obtain ⟨rfl, rfl⟩ : x = y ∧ xs = ys := by
          constructor <;> injection h
        rw [if_pos rfl, editDist_self]
        have hm1 := Nat.min_le_right (1 + editDist xs (x :: xs)) (0 + 0)
        have hm2 := Nat.min_le_right (1 + editDist xs (x :: xs))
          (min (1 + editDist (x :: xs) xs) (0 + 0))
        have hm3 := Nat.min_le_right (1 + editDist (x :: xs) xs) (0 + 0)
        omega

theorem editDist_sub_singleton {α : Type} [DecidableEq α] (x y : α) (s : List α)
    (h : x ≠ y) : editDist (x :: s) (y :: s) = 1 := by
  have hub : editDist (x :: s) (y :: s) ≤ 1 := by
    rw [editDist_cons_cons, if_neg h, editDist_self]
    have hm1 := Nat.min_le_right (1 + editDist (x :: s) s) (1 + 0)
    have hm2 := Nat.min_le_right (1 + editDist s (y :: s))
      (min (1 + editDist (x :: s) s) (1 + 0))
    omega
  have hlb : editDist (x :: s) (y :: s) ≠ 0 := by
    simp only [Ne, editDist_eq_zero_iff, List.cons.injEq, not_and]
    intro hxy
    exact absurd hxy h
  omega

theorem editDist_hello : editDist "Hello Warld".toList "Hello World".toList = 1 := by
  show editDist ['H','e','l','l','o',' ','W','a','r','l','d']
      ['H','e','l','l','o',' ','W','o','r','l','d'] = 1
  rw [editDist_cons_same, editDist_cons_same, editDist_cons_same, editDist_cons_same,
    editDist_cons_same, editDist_cons_same, editDist_cons_same]
  exact editDist_sub_singleton 'a' 'o' ['r','l','d'] (by decide)

/-- C7: `calculate_cer` is the unit-cost Levenshtein distance between the
character sequences divided by the reference length, with the documented
empty-reference convention; consequently `CER(s, s) = 0` for every `s`,
and `CER("Hello Warld", "Hello World") = 1/11`. -/
theorem C7_cer_levenshtein (s p r : String) :
    calculate_cer s s = 0 ∧
    calculate_cer "Hello Warld" "Hello World" = 1 / 11 ∧
    calculate_cer p "" = (if p = "" then 0 else 1) ∧
    calculate_cer p r = (if r = "" then (if p = "" then 0 else 1)
      else (editDist p.toList r.toList : ℚ) / (r.length : ℚ)) := by
  refine ⟨?_, ?_, ?_, rfl⟩
  · by_cases hs : s = ""
    · simp [calculate_cer, hs]
    · simp [calculate_cer, hs, editDist_self]
  · rw [calculate_cer, if_neg (by decide), editDist_hello]
    norm_num [show "Hello World".length = 11 from rfl]
  · simp [calculate_cer]

/-- C5: `evaluate_detection` returns `precision = recall = ap = f1 = 1.0`
when both input lists are empty, and all four metrics `0.0` (an exact
rational zero, not NaN) whenever exactly one of the two lists is empty,
for every IoU threshold. -/
theorem C5_empty_conventions (τ : ℚ) (p : PredBox) (preds : List PredBox)
    (g : Box) (gts : List Box) :
    evaluate_detection [] [] τ = ⟨1, 1, 1, 1⟩ ∧
    evaluate_detection (p :: preds) [] τ = ⟨0, 0, 0, 0⟩ ∧
    evaluate_detection [] (g :: gts) τ = ⟨0, 0, 0, 0⟩ := by
  refine ⟨rfl, ?_, rfl⟩
  simp [evaluate_detection]

/-- C8: `evaluate_ocr` fails with a validation error precisely when the
prediction and reference lists differ in length; on two empty lists it
returns the well-defined result `CER = 0`, `WER = 0`, `num_samples = 0`. -/
theorem C8_evaluate_ocr_contract (preds gts : List String) :
    ((∃ e, evaluate_ocr preds gts = .error e) ↔ preds.length ≠ gts.length) ∧
    evaluate_ocr [] [] = .ok ⟨0, 0, 0, []⟩ := by
  refine ⟨⟨?_, ?_⟩, rfl⟩
  · rintro ⟨e, he⟩
    by_contra h
    rw [evaluate_ocr, if_neg (by omega)] at he
    split at he <;> exact absurd he (by simp)
  · intro h
    exact ⟨_, by rw [evaluate_ocr, if_pos h]⟩

theorem string_join_pair (a b : String) : String.join [a, b] = a ++ b := by
  simp [String.join, List.foldl]

theorem string_join_triple (a b c : String) : String.join [a, b, c] = a ++ b ++ c := by
  simp [String.join, List.foldl]

theorem string_foldl_append (l : List String) :
    ∀ (init : String), l.foldl (· ++ ·) init = init ++ l.foldl (· ++ ·) "" := by
  induction l with
  | nil => intro init; simp
  | cons a l ih =>
    intro init
    rw [List.foldl_cons, List.foldl_cons, ih (init ++ a), ih ("" ++ a)]
    rw [String.empty_append, String.append_assoc]

theorem string_join_cons (s : String) (l : List String) :
    String.join (s :: l) = s ++ String.join l := by
  show (s :: l).foldl (· ++ ·) "" = s ++ l.foldl (· ++ ·) ""
  rw [List.foldl_cons, string_foldl_append l, String.empty_append]

/-- The within-line merge rule as the claim states it: scan the adjacent
pairs `(prev, cur)` left to right and emit a single space before `cur`'s
text exactly when the gap `cur.x1 - prev.x2` strictly exceeds
`space_pixels` (that is, `avg_height * spaceThreshold`), otherwise
concatenate with no separator.  Written from the spec's words, for
comparison with `merge_line_text`. -/
def mergeLineSpec (space_pixels : ℚ) : DetectionBox → List DetectionBox → String
  | _, [] => ""
  | prev, cur :: rest =>
    ((if space_pixels < ((cur.x1 - prev.x2 : ℤ) : ℚ) then " " else "") ++ cur.ocr_text)
      ++ mergeLineSpec space_pixels cur rest

theorem lineParts_join (sp : ℚ) : ∀ (l : List DetectionBox) (prev : DetectionBox),
    String.join (lineParts sp prev l) = mergeLineSpec sp prev l := by
  intro l
  induction l with
  | nil => intro prev; rfl
  | cons cur rest ih =>
    intro prev
    rw [lineParts, mergeLineSpec]
    by_cases hc : sp < ((cur.x1 - prev.x2 : ℤ) : ℚ)
    · rw [if_pos hc, if_pos hc, List.cons_append, List.cons_append, List.nil_append,
        string_join_cons, string_join_cons, ih cur, String.append_assoc]
    · rw [if_neg hc, if_neg hc, List.cons_append, List.nil_append,
        string_join_cons, ih cur, String.empty_append]

/-- C6: for every non-empty line of left-to-right ordered boxes, the
merged line text is built by scanning the adjacent pairs `(prev, cur)`:
a single space is inserted before `cur`'s text exactly when
`cur.x1 - prev.x2 > avg_height * spaceThreshold` (with `avg_height` the
mean box height of the whole line), and the texts are concatenated with
no separator otherwise; in particular, for the one-line boxes
`A = [0,0,50,20]` and `B = [60,2,110,22]` at the default threshold
`0.3`, the gap `10` exceeds `20 * 0.3 = 6`, so a single space separates
their texts. -/
theorem C6_space_insertion (st : ℚ) (b0 : DetectionBox) (rest : List DetectionBox) :
    merge_line_text (b0 :: rest) st =
      b0.ocr_text ++
        mergeLineSpec
          (((((b0 :: rest).map DetectionBox.height).sum : ℤ) : ℚ)
              / ((b0 :: rest).length : ℚ) * st)
          b0 rest ∧
    merge_line_text
      [{ id := 0, x1 := 0, y1 := 0, x2 := 50, y2 := 20, confidence := 1, ocr_text := "A" },
       { id := 1, x1 := 60, y1 := 2, x2 := 110, y2 := 22, confidence := 1, ocr_text := "B" }]
      (3 / 10) = "A B" := by
  constructor
  · rw [merge_line_text]
    rw [string_join_cons, lineParts_join]
  · rw [show (merge_line_text
      [{ id := 0, x1 := 0, y1 := 0, x2 := 50, y2 := 20, confidence := 1, ocr_text := "A" },
       { id := 1, x1 := 60, y1 := 2, x2 := 110, y2 := 22, confidence := 1, ocr_text := "B" }]
      (3 / 10)) = String.join ["A", " ", "B"] from by norm_num [merge_line_text, lineParts,
        DetectionBox.height]]
    rw [string_join_triple]
    rfl

theorem lookup_map_self (f : ℚ → ℚ) : ∀ (ts : List ℚ) (k : ℚ), k ∈ ts →
    (ts.map (fun t => (t, f t))).lookup k = some (f k) := by
  intro ts
  induction ts with
  | nil => intro k hk; simp at hk
  | cons t ts ih =>
    intro k hk
    by_cases h : k = t
    · subst h
      simp
    · rw [List.mem_cons] at hk
      rcases hk with hk | hk
      · exact absurd hk h
      · have hbf : (k == t) = false := by simp [h]
        simpa [List.lookup_cons, hbf] using ih k hk

/-- C9 as stated fails: for the caller-supplied threshold set `{0.6}` and
empty prediction and ground-truth lists, `calculate_map` reports
`mAP@0.5 = 0` although `AP@0.5` (the AP that `evaluate_detection`
computes at threshold `0.5` on the same pooled input) is `1`. -/
theorem C9_counterexample :
    ¬ ((calculate_map [] [] [3 / 5]).map50 = (evaluate_detection [] [] (1 / 2)).ap) := by
  intro h
  rw [show evaluate_detection [] [] (1 / 2) = ⟨1, 1, 1, 1⟩ from rfl] at h
  simp only [calculate_map, List.map_cons, List.map_nil, List.lookup_cons] at h
  rw [show (((1 : ℚ) / 2) == ((3 : ℚ) / 5)) = false by simp; norm_num] at h
  simp at h

/-- C9 amended: for every caller-supplied threshold list that contains
`0.5` (as the default COCO-style list does), `calculate_map` returns
`mAP@0.5` equal to `AP@0.5` and `mAP@0.5:0.95` equal to the arithmetic
mean of the per-threshold AP values. -/
theorem C9_map_mean (allPreds : List (List PredBox)) (allGts : List (List Box))
    (ts : List ℚ) (h : (1 : ℚ) / 2 ∈ ts) :
    (calculate_map allPreds allGts ts).map50 =
      (evaluate_detection allPreds.flatten allGts.flatten (1 / 2)).ap ∧
    (calculate_map allPreds allGts ts).map5095 =
      (ts.map (fun t => (evaluate_detection allPreds.flatten allGts.flatten t).ap)).sum
        / (ts.length : ℚ) := by
  constructor
  · simp only [calculate_map]
    rw [lookup_map_self _ ts _ h]
    rfl
  · simp only [calculate_map]
    have hmap : ts.map (fun u =>
        ((ts.map (fun t => (t, (evaluate_detection allPreds.flatten allGts.flatten t).ap))).lookup
          u).getD 0)
        = ts.map (fun t => (evaluate_detection allPreds.flatten allGts.flatten t).ap) :=
      List.map_congr_left (fun u hu => by
        rw [lookup_map_self _ ts u hu]
        rfl)
    rw [hmap, List.length_map]

/-- Witness for `C9_map_mean` at the concrete input `ts = [1/2]` with
empty prediction and ground-truth lists. -/
theorem C9_map_mean_witness :
    ((1 : ℚ) / 2 ∈ [(1 : ℚ) / 2]) ∧
    ((calculate_map [] [] [1 / 2]).map50 = (evaluate_detection [] [] (1 / 2)).ap ∧
     (calculate_map [] [] [1 / 2]).map5095 =
       (([(1 : ℚ) / 2]).map (fun t => (evaluate_detection [] [] t).ap)).sum
         / (([(1 : ℚ) / 2]).length : ℚ)) :=
  ⟨by simp, C9_map_mean [] [] [1 / 2] (by simp)⟩

/-! ### The greedy matching is one-to-one for positive thresholds -/

theorem mergeSort_pair {α : Type} (le : α → α → Bool) (a b : α) :
    List.mergeSort [a, b] le = if le a b then [a, b] else [b, a] := by
  rw [List.mergeSort]
  simp [List.splitInTwo, List.splitAt, List.splitAt.go, List.merge]

theorem bestFold_spec (pb : Box) :
    ∀ (l : List (ℕ × Box × Bool)) (acc : ℚ × ℤ), 0 ≤ acc.1 →
      0 ≤ (l.foldl (bestStep pb) acc).1 ∧
      (0 < (l.foldl (bestStep pb) acc).1 →
        (l.foldl (bestStep pb) acc) = acc ∨
        ∃ i g, (i, (g, false)) ∈ l ∧ (l.foldl (bestStep pb) acc).2 = (i : ℤ)) := by
  intro l
  induction l with
  | nil =>
    intro acc h
    exact ⟨h, fun _ => Or.inl rfl⟩
  | cons x rest ih =>
    intro acc hacc
    obtain ⟨j, g, m⟩ := x
    rw [List.foldl_cons]
    by_cases hm : m
    · have hstep : bestStep pb acc (j, g, m) = acc := by simp [bestStep, hm]
      rw [hstep]
      obtain ⟨h0, h1⟩ := ih acc hacc
      refine ⟨h0, fun hpos => ?_⟩
      rcases h1 hpos with he | ⟨i, g2, hig, he⟩
      · exact Or.inl he
      · exact Or.inr ⟨i, g2, List.mem_cons_of_mem _ hig, he⟩
    · by_cases hup : acc.1 < calculate_iou pb g
      · have hstep : bestStep pb acc (j, g, m) = (calculate_iou pb g, (j : ℤ)) := by
          simp [bestStep, hm, hup]
        rw [hstep]
        obtain ⟨h0, h1⟩ := ih (calculate_iou pb g, (j : ℤ)) (le_of_lt (lt_of_le_of_lt hacc hup))
        refine ⟨h0, fun hpos => ?_⟩
        have hm' : m = false := by simpa using hm
        rcases h1 hpos with he | ⟨i, g2, hig, he⟩
        · subst hm'
          exact Or.inr ⟨j, g, List.mem_cons_self _ _, by rw [he]⟩
        · exact Or.inr ⟨i, g2, List.mem_cons_of_mem _ hig, he⟩
      · have hstep : bestStep pb acc (j, g, m) = acc := by simp [bestStep, hm, hup]
        rw [hstep]
        obtain ⟨h0, h1⟩ := ih acc hacc
        refine ⟨h0, fun hpos => ?_⟩
        rcases h1 hpos with he | ⟨i, g2, hig, he⟩
        · exact Or.inl he
        · exact Or.inr ⟨i, g2, List.mem_cons_of_mem _ hig, he⟩

theorem bestMatch_found (pb : Box) (gts : List Box) (matched : List Bool)
    (hpos : 0 < (bestMatch pb gts matched).1) :
    ∃ i : ℕ, (bestMatch pb gts matched).2 = (i : ℤ) ∧ matched[i]? = some false := by
  obtain ⟨h0, h1⟩ := bestFold_spec pb ((gts.zip matched).enum) (0, -1) (le_refl 0)
  rcases h1 hpos with he | ⟨i, g, hig, he⟩
  · rw [bestMatch] at hpos
    rw [he] at hpos
    simp at hpos
  · refine ⟨i, he, ?_⟩
    rw [List.mk_mem_enum_iff_getElem?] at hig
    exact (List.getElem?_zip_eq_some.mp hig).2

theorem count_set_true : ∀ (l : List Bool) (i : ℕ), l[i]? = some false →
    (l.set i true).count true = l.count true + 1 := by
  intro l
  induction l with
  | nil => intro i h; simp at h
  | cons b rest ih =>
    intro i h
    cases i with
    | zero =>
      simp only [List.getElem?_cons_zero, Option.some.injEq] at h
      subst h
      simp [List.count_cons]
    | succ n =>
      simp only [List.getElem?_cons_succ] at h
      rw [List.set_cons_succ]
      simp only [List.count_cons, ih n h]
      omega

theorem matchLoop_spec (τ : ℚ) (hτ : 0 < τ) (gts : List Box) :
    ∀ (preds : List PredBox) (matched : List Bool),
      (matchLoop τ gts preds matched).2.count true =
        (matchLoop τ gts preds matched).1.count true + matched.count true ∧
      (matchLoop τ gts preds matched).2.length = matched.length := by
  intro preds
  induction preds with
  | nil => intro matched; simp [matchLoop]
  | cons p rest ih =>
    intro matched
    by_cases hge : τ ≤ (bestMatch p.box gts matched).1
    · have hpos : 0 < (bestMatch p.box gts matched).1 := lt_of_lt_of_le hτ hge
      obtain ⟨i, hidx, hfalse⟩ := bestMatch_found p.box gts matched hpos
      have hset : setMatched matched (bestMatch p.box gts matched).2 = matched.set i true := by
        rw [hidx, setMatched, if_pos (Int.ofNat_nonneg i)]
        simp
      have hloop : matchLoop τ gts (p :: rest) matched =
          (true :: (matchLoop τ gts rest (matched.set i true)).1,
           (matchLoop τ gts rest (matched.set i true)).2) := by
        rw [matchLoop, if_pos hge, hset]
      rw [hloop]
      obtain ⟨hcount, hlen⟩ := ih (matched.set i true)
      have hc := count_set_true matched i hfalse
      constructor
      · simp only [List.count_cons_self, hcount, hc]
        omega
      · simpa [List.length_set] using hlen
    · have hloop : matchLoop τ gts (p :: rest) matched =
          (false :: (matchLoop τ gts rest matched).1,
           (matchLoop τ gts rest matched).2) := by
        rw [matchLoop, if_neg hge]
      rw [hloop]
      obtain ⟨hcount, hlen⟩ := ih matched
      refine ⟨?_, hlen⟩
      rw [hcount, List.count_cons]
      simp

theorem tpFlags_count (preds : List PredBox) (gts : List Box) (τ : ℚ) (hτ : 0 < τ) :
    (tpFlags preds gts τ).count true =
      (matchLoop τ gts (sortPreds preds) (List.replicate gts.length false)).2.count true ∧
    (tpFlags preds gts τ).count true ≤ gts.length := by
  obtain ⟨hc, hl⟩ := matchLoop_spec τ hτ gts (sortPreds preds) (List.replicate gts.length false)
  have hz : (List.replicate gts.length false).count true = 0 := by
    simp [List.count_replicate]
  have hle := List.count_le_length true
    (matchLoop τ gts (sortPreds preds) (List.replicate gts.length false)).2
  rw [hl, List.length_replicate] at hle
  constructor
  · rw [tpFlags]
    omega
  · rw [tpFlags]
    omega

/-- C1 amended: for every strictly positive IoU threshold, the greedy
confidence-ordered matching of `evaluate_detection` is a one-to-one
assignment — the true-positive count equals the number of distinct
ground-truth entries marked matched, and therefore never exceeds the
number of ground truths.  (At `iouThreshold = 0` the claim fails, see the
counterexample.) -/
theorem C1_matching_one_to_one (preds : List PredBox) (gts : List Box) (τ : ℚ)
    (hτ : 0 < τ) :
    truePositives preds gts τ =
      (matchLoop τ gts (sortPreds preds) (List.replicate gts.length false)).2.count true ∧
    truePositives preds gts τ ≤ gts.length :=
  tpFlags_count preds gts τ hτ

/-- Witness for `C1_matching_one_to_one` at threshold 1 with one
prediction coinciding with the single ground truth. -/
theorem C1_matching_one_to_one_witness :
    (0 : ℚ) < 1 ∧
    (truePositives [⟨⟨0, 0, 2, 2⟩, 1⟩] [⟨0, 0, 2, 2⟩] 1 =
      (matchLoop 1 [⟨0, 0, 2, 2⟩] (sortPreds [⟨⟨0, 0, 2, 2⟩, 1⟩])
        (List.replicate ([⟨0, 0, 2, 2⟩] : List Box).length false)).2.count true ∧
     truePositives [⟨⟨0, 0, 2, 2⟩, 1⟩] [⟨0, 0, 2, 2⟩] 1 ≤ ([⟨0, 0, 2, 2⟩] : List Box).length) :=
  ⟨by norm_num, C1_matching_one_to_one [⟨⟨0, 0, 2, 2⟩, 1⟩] [⟨0, 0, 2, 2⟩] 1 (by norm_num)⟩

unseal List.merge List.mergeSort in
theorem truePositives_tau_zero :
    truePositives [⟨⟨0, 0, 1, 1⟩, 1⟩, ⟨⟨0, 0, 1, 1⟩, 1⟩] [⟨5, 5, 6, 6⟩] 0 = 2 := by
  decide

/-- C1 as stated fails at `iouThreshold = 0`: two predictions that
overlap no ground truth still count as true positives (the sentinel
`best_gt_idx = -1` marks the last ground-truth entry), so the
true-positive count `2` exceeds the single ground truth. -/
theorem C1_counterexample :
    ¬ (truePositives [⟨⟨0, 0, 1, 1⟩, 1⟩, ⟨⟨0, 0, 1, 1⟩, 1⟩] [⟨5, 5, 6, 6⟩] 0 ≤
        ([⟨5, 5, 6, 6⟩] : List Box).length) := by
  intro h
  rw [truePositives_tau_zero] at h
  simp at h

/-! ### AP bounds for positive thresholds -/

theorem mem_zipWith {α β γ : Type} (f : α → β → γ) :
    ∀ (as : List α) (bs : List β) (x : γ), x ∈ List.zipWith f as bs →
      ∃ a ∈ as, ∃ b ∈ bs, x = f a b := by
  intro as
  induction as with
  | nil => intro bs x hx; simp at hx
  | cons a as ih =>
    intro bs x hx
    cases bs with
    | nil => simp at hx
    | cons b bs =>
      rw [List.zipWith_cons_cons] at hx
      rcases List.mem_cons.mp hx with rfl | hx
      · exact ⟨a, List.mem_cons_self _ _, b, List.mem_cons_self _ _, rfl⟩
      · obtain ⟨a2, ha, b2, hb, hx⟩ := ih bs x hx
        exact ⟨a2, List.mem_cons_of_mem _ ha, b2, List.mem_cons_of_mem _ hb, hx⟩

theorem precisionsOf_bounds (tp : List Bool) :
    ∀ x ∈ precisionsOf tp, 0 ≤ x ∧ x ≤ 1 := by
  intro x hx
  rw [precisionsOf] at hx
  obtain ⟨t, _, f, _, rfl⟩ := mem_zipWith _ _ _ x hx
  refine ⟨div_nonneg (by positivity) (by positivity), ?_⟩
  rcases eq_or_lt_of_le (show (0 : ℚ) ≤ (t : ℚ) + (f : ℚ) by positivity) with h | h
  · rw [← h, div_zero]
    norm_num
  · exact div_le_one_of_le₀ (by exact_mod_cast Nat.le_add_right t f) (le_of_lt h)

theorem cumCounts_chain : ∀ (acc : ℕ) (tp : List Bool),
    List.Chain (· ≤ ·) acc (cumCounts acc tp) := by
  intro acc tp
  induction tp generalizing acc with
  | nil => exact List.Chain.nil
  | cons b rest ih =>
    rw [cumCounts]
    exact List.Chain.cons (Nat.le_add_right acc _) (ih _)

theorem cumCounts_le_count : ∀ (tp : List Bool) (acc : ℕ) (x : ℕ),
    x ∈ cumCounts acc tp → x ≤ acc + tp.count true := by
  intro tp
  induction tp with
  | nil => intro acc x hx; simp [cumCounts] at hx
  | cons b rest ih =>
    intro acc x hx
    rw [cumCounts] at hx
    rcases List.mem_cons.mp hx with rfl | hx
    · cases b <;> simp [List.count_cons]
    · have := ih (acc + if b then 1 else 0) x hx
      cases b <;> simp [List.count_cons] at this ⊢ <;> omega

theorem recallsOf_bounds (tp : List Bool) (numGt : ℕ) (hgt : 0 < numGt)
    (hcnt : tp.count true ≤ numGt) :
    ∀ x ∈ recallsOf tp numGt, 0 ≤ x ∧ x ≤ 1 := by
  intro x hx
  rw [recallsOf] at hx
  obtain ⟨c, hc, rfl⟩ := List.mem_map.mp hx
  have hcle : c ≤ numGt := le_trans (by simpa using cumCounts_le_count tp 0 c hc) hcnt
  refine ⟨div_nonneg (by positivity) (by positivity), ?_⟩
  rw [div_le_one (by exact_mod_cast hgt)]
  exact_mod_cast hcle

theorem chain_div_of_chain (d : ℚ) (hd : 0 < d) : ∀ (a : ℕ) (l : List ℕ),
    List.Chain (· ≤ ·) a l →
    List.Chain (· ≤ ·) ((a : ℚ) / d) (l.map (fun (c : ℕ) => (c : ℚ) / d)) := by
  intro a l
  induction l generalizing a with
  | nil => intro _; exact List.Chain.nil
  | cons x l ih =>
    intro h
    cases h with
    | cons hax hxl =>
      refine List.Chain.cons ?_ (ih x hxl)
      exact div_le_div_of_nonneg_right (by exact_mod_cast hax) hd.le

theorem chain_append_last (z : ℚ) : ∀ (a : ℚ) (l : List ℚ),
    List.Chain (· ≤ ·) a l → a ≤ z → (∀ x ∈ l, x ≤ z) →
    List.Chain (· ≤ ·) a (l ++ [z]) := by
  intro a l
  induction l generalizing a with
  | nil => intro _ haz _; exact List.Chain.cons haz List.Chain.nil
  | cons x l ih =>
    intro h haz hall
    cases h with
    | cons hax hxl =>
      exact List.Chain.cons hax (ih x hxl (hall x (List.mem_cons_self _ _))
        (fun y hy => hall y (List.mem_cons_of_mem _ hy)))

theorem chain_le_getLastD : ∀ (l : List ℚ) (a : ℚ),
    List.Chain (· ≤ ·) a l → a ≤ l.getLastD a := by
  intro l
  induction l with
  | nil => intro a _; exact le_refl _
  | cons x l ih =>
    intro a h
    cases h with
    | cons hax hxl =>
      rw [List.getLastD_cons]
      exact le_trans hax (ih x hxl)

theorem monoEnv_bounds : ∀ (l : List ℚ), (∀ y ∈ l, 0 ≤ y ∧ y ≤ 1) →
    ∀ x ∈ monoEnv l, 0 ≤ x ∧ x ≤ 1 := by
  intro l
  induction l with
  | nil => intro _; simp [monoEnv]
  | cons hd xs ih =>
    intro h z hz
    cases xs with
    | nil =>
      simp only [monoEnv, List.mem_singleton] at hz
      subst hz
      exact h _ (List.mem_singleton_self _)
    | cons y rest =>
      have ih2 := ih (fun u hu => h u (List.mem_cons_of_mem _ hu))
      rw [monoEnv] at hz
      cases hm : monoEnv (y :: rest) with
      | nil =>
        rw [hm] at hz
        simp at hz
        subst hz
        exact h _ (List.mem_cons_self _ _)
      | cons w ws =>
        rw [hm] at hz
        simp only [List.mem_cons] at hz
        rcases hz with rfl | hz2
        · have hx := h hd (List.mem_cons_self _ _)
          have hw := ih2 w (hm ▸ List.mem_cons_self _ _)
          exact ⟨le_max_of_le_left hx.1, max_le hx.2 hw.2⟩
        · exact ih2 z (hm ▸ List.mem_cons.mpr hz2)

theorem monoEnv_ne_nil : ∀ (l : List ℚ), l ≠ [] → monoEnv l ≠ [] := by
  intro l hl
  cases l with
  | nil => exact absurd rfl hl
  | cons hd xs =>
    cases xs with
    | nil => simp [monoEnv]
    | cons y rest =>
      rw [monoEnv]
      cases hm : monoEnv (y :: rest) <;> simp

theorem apSum_bounds : ∀ (rs : List ℚ) (ps : List ℚ) (rprev : ℚ),
    List.Chain (· ≤ ·) rprev rs → (∀ p ∈ ps, 0 ≤ p ∧ p ≤ 1) →
    0 ≤ apSum rprev (rs.zip ps) ∧ apSum rprev (rs.zip ps) ≤ rs.getLastD rprev - rprev := by
  intro rs
  induction rs with
  | nil => intro ps rprev _ _; simp [apSum]
  | cons r rs ih =>
    intro ps rprev hchain hps
    cases hchain with
    | cons hpr hchain =>
      cases ps with
      | nil =>
        have hlast := chain_le_getLastD (r :: rs) rprev (List.Chain.cons hpr hchain)
        simp only [List.zip_nil_right, apSum]
        constructor
        · exact le_refl 0
        · linarith
      | cons p ps =>
        rw [List.zip_cons_cons, apSum]
        obtain ⟨hp0, hp1⟩ := hps p (List.mem_cons_self _ _)
        obtain ⟨ih0, ih1⟩ := ih ps r hchain (fun q hq => hps q (List.mem_cons_of_mem _ hq))
        have hterm : 0 ≤ (if r ≠ rprev then (r - rprev) * p else 0) ∧
            (if r ≠ rprev then (r - rprev) * p else 0) ≤ r - rprev := by
          split
          · exact ⟨mul_nonneg (by linarith) hp0, mul_le_of_le_one_right (by linarith) hp1⟩
          · exact ⟨le_refl 0, by linarith⟩
        rw [List.getLastD_cons]
        constructor
        · linarith [hterm.1]
        · linarith [hterm.2]

theorem calculate_ap_bounds (precisions recalls : List ℚ)
    (hps : ∀ x ∈ precisions, 0 ≤ x ∧ x ≤ 1)
    (hchain : List.Chain (· ≤ ·) 0 recalls)
    (hrle : ∀ x ∈ recalls, x ≤ 1) :
    0 ≤ calculate_ap precisions recalls ∧ calculate_ap precisions recalls ≤ 1 := by
  rw [calculate_ap]
  simp only [List.cons_append]
  have hb : ∀ y ∈ (0 : ℚ) :: (precisions ++ [0]), 0 ≤ y ∧ y ≤ 1 := by
    intro y hy
    rcases List.mem_cons.mp hy with rfl | hy
    · norm_num
    · rcases List.mem_append.mp hy with hy | hy
      · exact hps y hy
      · rw [List.mem_singleton] at hy
        subst hy
        norm_num
  obtain ⟨p0, ps', hps'⟩ :=
    List.exists_cons_of_ne_nil (monoEnv_ne_nil ((0 : ℚ) :: (precisions ++ [0])) (by simp))
  rw [hps', List.zip_cons_cons, List.tail_cons]
  have hbounds' : ∀ p ∈ ps', 0 ≤ p ∧ p ≤ 1 := by
    intro p hp
    exact monoEnv_bounds _ hb p (hps' ▸ List.mem_cons_of_mem _ hp)
  have hchain2 : List.Chain (· ≤ ·) 0 (recalls ++ [1]) :=
    chain_append_last 1 0 recalls hchain (by norm_num) hrle
  have hsum := apSum_bounds (recalls ++ [1]) ps' 0 hchain2 hbounds'
  rw [List.getLastD_concat] at hsum
  constructor
  · linarith [hsum.1]
  · linarith [hsum.2]

unseal List.merge List.mergeSort in
theorem tpFlags_tau_zero :
    tpFlags [⟨⟨0, 0, 1, 1⟩, 1⟩, ⟨⟨0, 0, 1, 1⟩, 1⟩] [⟨5, 5, 6, 6⟩] 0 = [true, true] := by
  decide

/-- C2 amended: for every strictly positive IoU threshold and all
prediction and ground-truth lists, the Average Precision returned by
`evaluate_detection` satisfies `0 ≤ AP ≤ 1`.  (At `iouThreshold = 0` the
bound fails, see the counterexample.) -/
theorem C2_ap_bounded (preds : List PredBox) (gts : List Box) (τ : ℚ) (hτ : 0 < τ) :
    0 ≤ (evaluate_detection preds gts τ).ap ∧ (evaluate_detection preds gts τ).ap ≤ 1 := by
  rw [evaluate_detection]
  split
  · exact ⟨by norm_num, by norm_num⟩
  split
  · exact ⟨by norm_num, by norm_num⟩
  split
  · exact ⟨by norm_num, by norm_num⟩
  next h3 =>
    have hgtne : gts ≠ [] := by simpa [List.isEmpty_iff] using h3
    have hgt : 0 < gts.length := List.length_pos.mpr hgtne
    dsimp only
    apply calculate_ap_bounds
    · exact precisionsOf_bounds _
    · rw [recallsOf]
      have hch := chain_div_of_chain (gts.length : ℚ) (by exact_mod_cast hgt) 0
        (cumCounts 0 (tpFlags preds gts τ)) (cumCounts_chain 0 (tpFlags preds gts τ))
      simpa using hch
    · intro x hx
      exact (recallsOf_bounds _ _ hgt (tpFlags_count preds gts τ hτ).2 x hx).2

/-- Witness for `C2_ap_bounded` at threshold 1 on a one-box input. -/
theorem C2_ap_bounded_witness :
    (0 : ℚ) < 1 ∧
    (0 ≤ (evaluate_detection [⟨⟨0, 0, 2, 2⟩, 1⟩] [⟨0, 0, 2, 2⟩] 1).ap ∧
     (evaluate_detection [⟨⟨0, 0, 2, 2⟩, 1⟩] [⟨0, 0, 2, 2⟩] 1).ap ≤ 1) :=
  ⟨by norm_num, C2_ap_bounded [⟨⟨0, 0, 2, 2⟩, 1⟩] [⟨0, 0, 2, 2⟩] 1 (by norm_num)⟩

/-- C2 as stated fails at `iouThreshold = 0`: with two predictions that
overlap no ground truth and a single ground truth, the recall sequence
exceeds 1 (a consequence of the `-1`-sentinel matching bug) and the
returned AP is `2 > 1`. -/
theorem C2_counterexample :
    ¬ (0 ≤ (evaluate_detection [⟨⟨0, 0, 1, 1⟩, 1⟩, ⟨⟨0, 0, 1, 1⟩, 1⟩] [⟨5, 5, 6, 6⟩] 0).ap ∧
       (evaluate_detection [⟨⟨0, 0, 1, 1⟩, 1⟩, ⟨⟨0, 0, 1, 1⟩, 1⟩] [⟨5, 5, 6, 6⟩] 0).ap ≤ 1) := by
  have hap :
      (evaluate_detection [⟨⟨0, 0, 1, 1⟩, 1⟩, ⟨⟨0, 0, 1, 1⟩, 1⟩] [⟨5, 5, 6, 6⟩] 0).ap = 2 := by
    rw [evaluate_detection]
    simp only [List.isEmpty_cons, Bool.false_and, Bool.false_eq_true, if_false, tpFlags_tau_zero]
    norm_num [precisionsOf, recallsOf, cumCounts, calculate_ap, monoEnv, apSum,
      List.zip, List.zipWith]
  rw [hap]
  norm_num

/-! ### The clustering pass partitions the input -/

theorem addOthers_spec (τ : ℚ) :
    ∀ (others line : List DetectionBox) (used : List ℤ),
      (∀ b ∈ line, b.id ∈ used) →
      ((line.map DetectionBox.id).Nodup) →
      (∃ extra, (addOthers τ others line used).1 = line ++ extra) ∧
      (((addOthers τ others line used).1.map DetectionBox.id).Nodup) ∧
      (∀ b ∈ (addOthers τ others line used).1, b.id ∈ (addOthers τ others line used).2) ∧
      (∀ x : ℤ, x ∈ (addOthers τ others line used).2 ↔
        x ∈ used ∨ x ∈ (addOthers τ others line used).1.map DetectionBox.id) ∧
      (∀ b ∈ (addOthers τ others line used).1,
        b ∈ line ∨ (b ∈ others ∧ b.id ∉ used)) := by
  intro others
  induction others with
  | nil =>
    intro line used hline hnd
    rw [addOthers]
    refine ⟨⟨[], (List.append_nil line).symm⟩, hnd, hline, ?_, fun b hb => Or.inl hb⟩
    intro x
    constructor
    · exact Or.inl
    · rintro (hx | hx)
      · exact hx
      · obtain ⟨b, hb, rfl⟩ := List.mem_map.mp hx
        exact hline b hb
  | cons o rest ih =>
    intro line used hline hnd
    rw [addOthers]
    by_cases ho : o.id ∈ used
    · rw [if_pos ho]
      obtain ⟨h1, h2, h3, h4, h5⟩ := ih line used hline hnd
      refine ⟨h1, h2, h3, h4, fun b hb => ?_⟩
      rcases h5 b hb with hb2 | ⟨hb2, hb3⟩
      · exact Or.inl hb2
      · exact Or.inr ⟨List.mem_cons_of_mem _ hb2, hb3⟩
    · rw [if_neg ho]
      by_cases hov : (line.any fun lb => decide (τ ≤ lb.vertical_overlap o)) = true
      · rw [if_pos hov]
        have hline2 : ∀ b ∈ line ++ [o], b.id ∈ o.id :: used := by
          intro b hb
          rcases List.mem_append.mp hb with hb | hb
          · exact List.mem_cons_of_mem _ (hline b hb)
          · rw [List.mem_singleton] at hb
            subst hb
            exact List.mem_cons_self _ _
        have hnd2 : ((line ++ [o]).map DetectionBox.id).Nodup := by
          rw [List.map_append, List.nodup_append]
          refine ⟨hnd, List.nodup_singleton _, ?_⟩
          intro x hx hx2
          rw [List.map_singleton, List.mem_singleton] at hx2
          subst hx2
          obtain ⟨b, hb, hbid⟩ := List.mem_map.mp hx
          exact ho (hbid ▸ hline b hb)
        obtain ⟨h1, h2, h3, h4, h5⟩ := ih (line ++ [o]) (o.id :: used) hline2 hnd2
        have homem : o ∈ (addOthers τ rest (line ++ [o]) (o.id :: used)).1 := by
          obtain ⟨extra, hex⟩ := h1
          rw [hex]
          exact List.mem_append.mpr (Or.inl (List.mem_append.mpr
            (Or.inr (List.mem_singleton_self o))))
        refine ⟨?_, h2, h3, ?_, ?_⟩
        · obtain ⟨extra, hex⟩ := h1
          exact ⟨[o] ++ extra, by rw [hex, List.append_assoc]⟩
        · intro x
          rw [h4 x]
          constructor
          · rintro (hx | hx)
            · rcases List.mem_cons.mp hx with rfl | hx
              · exact Or.inr (List.mem_map_of_mem _ homem)
              · exact Or.inl hx
            · exact Or.inr hx
          · rintro (hx | hx)
            · exact Or.inl (List.mem_cons_of_mem _ hx)
            · exact Or.inr hx
        · intro b hb
          rcases h5 b hb with hb2 | ⟨hb2, hb3⟩
          · rcases List.mem_append.mp hb2 with hb3 | hb3
            · exact Or.inl hb3
            · rw [List.mem_singleton] at hb3
              subst hb3
              exact Or.inr ⟨List.mem_cons_self _ _, ho⟩
          · refine Or.inr ⟨List.mem_cons_of_mem _ hb2, fun hbu => hb3 ?_⟩
            exact List.mem_cons_of_mem _ hbu
      · rw [if_neg hov]
        obtain ⟨h1, h2, h3, h4, h5⟩ := ih line used hline hnd
        refine ⟨h1, h2, h3, h4, fun b hb => ?_⟩
        rcases h5 b hb with hb2 | ⟨hb2, hb3⟩
        · exact Or.inl hb2
        · exact Or.inr ⟨List.mem_cons_of_mem _ hb2, hb3⟩

theorem groupOuter_spec (τ : ℚ) (all : List DetectionBox) :
    ∀ (rest : List DetectionBox) (used : List ℤ),
      (∀ b ∈ rest, b ∈ all) →
      (∀ b ∈ all, b ∈ rest ∨ b.id ∈ used) →
      (((groupOuter τ all rest used).flatten.map DetectionBox.id).Nodup) ∧
      (∀ x : ℤ, x ∈ (groupOuter τ all rest used).flatten.map DetectionBox.id ↔
        (x ∈ rest.map DetectionBox.id ∧ x ∉ used)) ∧
      (∀ b ∈ (groupOuter τ all rest used).flatten, b ∈ all) := by
  intro rest
  induction rest with
  | nil =>
    intro used _ _
    rw [groupOuter]
    exact ⟨by simp, by simp, by simp⟩
  | cons b rest ih =>
    intro used hsub hcover
    rw [groupOuter]
    by_cases hb : b.id ∈ used
    · rw [if_pos hb]
      have hsub' : ∀ c ∈ rest, c ∈ all := fun c hc => hsub c (List.mem_cons_of_mem _ hc)
      have hcover' : ∀ c ∈ all, c ∈ rest ∨ c.id ∈ used := by
        intro c hc
        rcases hcover c hc with hc2 | hc2
        · rcases List.mem_cons.mp hc2 with rfl | hc2
          · exact Or.inr hb
          · exact Or.inl hc2
        · exact Or.inr hc2
      obtain ⟨g1, g2, g3⟩ := ih used hsub' hcover'
      refine ⟨g1, ?_, g3⟩
      intro x
      rw [g2 x, List.map_cons]
      constructor
      · rintro ⟨hx1, hx2⟩
        exact ⟨List.mem_cons_of_mem _ hx1, hx2⟩
      · rintro ⟨hx1, hx2⟩
        rcases List.mem_cons.mp hx1 with rfl | hx1
        · exact absurd hb hx2
        · exact ⟨hx1, hx2⟩
    · rw [if_neg hb]
      dsimp only
      obtain ⟨a1, a2, a3, a4, a5⟩ := addOthers_spec τ all [b] (b.id :: used)
        (by
          intro c hc
          rw [List.mem_singleton] at hc
          subst hc
          exact List.mem_cons_self _ _)
        (by simp)
      set line2 := (addOthers τ all [b] (b.id :: used)).1 with hline2def
      set used2 := (addOthers τ all [b] (b.id :: used)).2 with hused2def
      have hbline : b ∈ line2 := by
        obtain ⟨extra, hex⟩ := a1
        rw [hex]
        exact List.mem_append.mpr (Or.inl (List.mem_singleton_self b))
      have husedsub : ∀ x : ℤ, x ∈ used → x ∈ used2 := fun x hx =>
        (a4 x).mpr (Or.inl (List.mem_cons_of_mem _ hx))
      have hsub' : ∀ c ∈ rest, c ∈ all := fun c hc => hsub c (List.mem_cons_of_mem _ hc)
      have hcover' : ∀ c ∈ all, c ∈ rest ∨ c.id ∈ used2 := by
        intro c hc
        rcases hcover c hc with hc2 | hc2
        · rcases List.mem_cons.mp hc2 with rfl | hc2
          · exact Or.inr (a3 c hbline)
          · exact Or.inl hc2
        · exact Or.inr (husedsub _ hc2)
      obtain ⟨g1, g2, g3⟩ := ih used2 hsub' hcover'
      rw [List.flatten_cons]
      have hsids : ∀ x : ℤ, x ∈ (line2.mergeSort
          (fun a c => decide (a.center_x ≤ c.center_x))).map DetectionBox.id ↔
          x ∈ line2.map DetectionBox.id := by
        intro x
        constructor
        · intro hx
          obtain ⟨c, hc, rfl⟩ := List.mem_map.mp hx
          exact List.mem_map_of_mem _ (List.mem_mergeSort.mp hc)
        · intro hx
          obtain ⟨c, hc, rfl⟩ := List.mem_map.mp hx
          exact List.mem_map_of_mem _ (List.mem_mergeSort.mpr hc)
      refine ⟨?_, ?_, ?_⟩
      · rw [List.map_append, List.nodup_append]
        refine ⟨?_, g1, ?_⟩
        · have hperm := (List.mergeSort_perm line2
            (fun a c => decide (a.center_x ≤ c.center_x))).map DetectionBox.id
          exact hperm.nodup_iff.mpr a2
        · intro x hx hx2
          rw [hsids x] at hx
          obtain ⟨c, hc, rfl⟩ := List.mem_map.mp hx
          exact ((g2 c.id).mp hx2).2 (a3 c hc)
      · intro x
        rw [List.map_append, List.mem_append, hsids x, g2 x, List.map_cons]
        constructor
        · rintro (hx | ⟨hx1, hx2⟩)
          · obtain ⟨c, hc, rfl⟩ := List.mem_map.mp hx
            rcases a5 c hc with hc2 | ⟨hc2, hc3⟩
            · rw [List.mem_singleton] at hc2
              subst hc2
              exact ⟨List.mem_cons_self _ _, hb⟩
            · have hcid : c.id ∉ used := fun hu => hc3 (List.mem_cons_of_mem _ hu)
              rcases hcover c hc2 with hc4 | hc4
              · exact ⟨List.mem_map_of_mem _ hc4, hcid⟩
              · exact absurd hc4 hcid
          · exact ⟨List.mem_cons_of_mem _ hx1, fun hu => hx2 (husedsub _ hu)⟩
        · rintro ⟨hx1, hx2⟩
          rcases List.mem_cons.mp hx1 with rfl | hx1
          · exact Or.inl (List.mem_map_of_mem _ hbline)
          · by_cases hx3 : x ∈ used2
            · rcases (a4 x).mp hx3 with hx4 | hx4
              · rcases List.mem_cons.mp hx4 with rfl | hx4
                · exact Or.inl (List.mem_map_of_mem _ hbline)
                · exact absurd hx4 hx2
              · exact Or.inl hx4
            · exact Or.inr ⟨hx1, hx3⟩
      · intro c hc
        rcases List.mem_append.mp hc with hc | hc
        · have hc2 := List.mem_mergeSort.mp hc
          rcases a5 c hc2 with hc3 | ⟨hc3, _⟩
          · rw [List.mem_singleton] at hc3
            subst hc3
            exact hsub c (List.mem_cons_self _ _)
          · exact hc3
        · exact g3 c hc

theorem map_flatten_enum_setline {γ : Type} (h : DetectionBox → γ)
    (hh : ∀ (i : ℤ) (b : DetectionBox), h { b with line_id := i } = h b)
    (L : List (List DetectionBox)) :
    ((L.enum.map (fun il =>
        il.2.map (fun b => { b with line_id := (il.1 : ℤ) }))).flatten.map h)
      = (L.flatten.map h) := by
  rw [List.map_flatten, List.map_flatten, List.map_map]
  congr 1
  have h1 : (List.map h ∘ fun il : ℕ × List DetectionBox =>
      il.2.map (fun b => { b with line_id := (il.1 : ℤ) })) =
      fun il : ℕ × List DetectionBox => il.2.map h := by
    funext il
    simp only [Function.comp_apply, List.map_map]
    exact List.map_congr_left (fun b _ => hh il.1 b)
  rw [h1]
  have h2 : (fun il : ℕ × List DetectionBox => il.2.map h) =
      (List.map h ∘ Prod.snd) := rfl
  rw [h2, ← List.map_map, List.enum, List.enumFrom_map_snd]

theorem group_into_lines_ids (boxes : List DetectionBox) (τ : ℚ) :
    (((group_into_lines boxes τ).flatten.map DetectionBox.id).Nodup) ∧
    (∀ x : ℤ, x ∈ (group_into_lines boxes τ).flatten.map DetectionBox.id ↔
      x ∈ boxes.map DetectionBox.id) ∧
    (∀ b2 ∈ (group_into_lines boxes τ).flatten, ∃ c ∈ boxes,
      b2 = { c with line_id := b2.line_id }) := by
  by_cases hne : boxes = []
  · subst hne
    refine ⟨by simp [group_into_lines], by simp [group_into_lines], ?_⟩
    intro b2 hb2
    simp [group_into_lines] at hb2
  · rw [group_into_lines, if_neg hne]
    dsimp only
    obtain ⟨g1, g2, g3⟩ := groupOuter_spec τ (sortByCenterY boxes) (sortByCenterY boxes) []
      (fun b hb => hb) (fun b hb => Or.inl hb)
    set raw := groupOuter τ (sortByCenterY boxes) (sortByCenterY boxes) [] with hraw
    have hflat : ∀ b : DetectionBox,
        b ∈ (raw.mergeSort (fun l1 l2 =>
          decide ((l1.map DetectionBox.center_y).sum / (l1.length : ℚ) ≤
            (l2.map DetectionBox.center_y).sum / (l2.length : ℚ)))).flatten ↔
        b ∈ raw.flatten := by
      intro b
      constructor
      · intro hb
        obtain ⟨l, hl, hbl⟩ := List.mem_flatten.mp hb
        exact List.mem_flatten.mpr ⟨l, List.mem_mergeSort.mp hl, hbl⟩
      · intro hb
        obtain ⟨l, hl, hbl⟩ := List.mem_flatten.mp hb
        exact List.mem_flatten.mpr ⟨l, List.mem_mergeSort.mpr hl, hbl⟩
    have hidseq := map_flatten_enum_setline DetectionBox.id (fun i b => rfl)
      (raw.mergeSort (fun l1 l2 =>
        decide ((l1.map DetectionBox.center_y).sum / (l1.length : ℚ) ≤
          (l2.map DetectionBox.center_y).sum / (l2.length : ℚ))))
    rw [hidseq]
    have hmemids : ∀ x : ℤ,
        x ∈ (raw.mergeSort (fun l1 l2 =>
          decide ((l1.map DetectionBox.center_y).sum / (l1.length : ℚ) ≤
            (l2.map DetectionBox.center_y).sum / (l2.length : ℚ)))).flatten.map
              DetectionBox.id ↔
        x ∈ raw.flatten.map DetectionBox.id := by
      intro x
      constructor
      · intro hx
        obtain ⟨c, hc, rfl⟩ := List.mem_map.mp hx
        exact List.mem_map_of_mem _ ((hflat c).mp hc)
      · intro hx
        obtain ⟨c, hc, rfl⟩ := List.mem_map.mp hx
        exact List.mem_map_of_mem _ ((hflat c).mpr hc)
    refine ⟨?_, ?_, ?_⟩
    · -- nodup: transfer g1 along the flatten-permutation
      have hperm := (List.mergeSort_perm raw (fun l1 l2 =>
        decide ((l1.map DetectionBox.center_y).sum / (l1.length : ℚ) ≤
          (l2.map DetectionBox.center_y).sum / (l2.length : ℚ)))).flatten.map
            DetectionBox.id
      exact hperm.nodup_iff.mpr g1
    · intro x
      rw [hmemids x, g2 x]
      simp only [List.not_mem_nil, not_false_iff, and_true]
      constructor
      · intro hx
        obtain ⟨c, hc, rfl⟩ := List.mem_map.mp hx
        exact List.mem_map_of_mem _ (List.mem_mergeSort.mp hc)
      · intro hx
        obtain ⟨c, hc, rfl⟩ := List.mem_map.mp hx
        exact List.mem_map_of_mem _ (List.mem_mergeSort.mpr hc)
    · intro b2 hb2
      obtain ⟨l, hl, hb2l⟩ := List.mem_flatten.mp hb2
      obtain ⟨il, hil, rfl⟩ := List.mem_map.mp hl
      obtain ⟨c0, hc0, rfl⟩ := List.mem_map.mp hb2l
      have hsnd : il.2 ∈ raw.mergeSort (fun l1 l2 =>
          decide ((l1.map DetectionBox.center_y).sum / (l1.length : ℚ) ≤
            (l2.map DetectionBox.center_y).sum / (l2.length : ℚ))) := by
        have := List.mem_map_of_mem Prod.snd hil
        rwa [List.enum, List.enumFrom_map_snd] at this
      have hc0raw : c0 ∈ raw.flatten :=
        List.mem_flatten.mpr ⟨il.2, List.mem_mergeSort.mp hsnd, hc0⟩
      have hc0sorted := g3 c0 hc0raw
      have hc0boxes : c0 ∈ boxes := List.mem_mergeSort.mp hc0sorted
      exact ⟨c0, hc0boxes, rfl⟩

theorem pairwise_disjoint_of_flatten_nodup :
    ∀ (L : List (List DetectionBox)),
      ((L.flatten.map DetectionBox.id).Nodup) →
      L.Pairwise (fun l1 l2 => ∀ b ∈ l1, ∀ c ∈ l2, b.id ≠ c.id) := by
  intro L
  induction L with
  | nil => intro _; exact List.Pairwise.nil
  | cons l L ih =>
    intro h
    rw [List.flatten_cons, List.map_append, List.nodup_append] at h
    obtain ⟨h1, h2, h3⟩ := h
    refine List.Pairwise.cons ?_ (ih h2)
    intro l2 hl2 b hb c hc he
    exact h3 (List.mem_map_of_mem _ hb)
      (he ▸ List.mem_map_of_mem _ (List.mem_flatten.mpr ⟨l2, hl2, hc⟩))

theorem group_into_lines_line_ids (boxes : List DetectionBox) (τ : ℚ) :
    ∀ (i : ℕ) (l : List DetectionBox), (group_into_lines boxes τ)[i]? = some l →
      ∀ b ∈ l, b.line_id = (i : ℤ) := by
  intro i l hl b hb
  by_cases hne : boxes = []
  · subst hne
    simp [group_into_lines] at hl
  · rw [group_into_lines, if_neg hne] at hl
    dsimp only at hl
    rw [List.getElem?_map, List.enum, List.getElem?_enumFrom] at hl
    set L2 := (groupOuter τ (sortByCenterY boxes) (sortByCenterY boxes) []).mergeSort
      (fun l1 l2 =>
        decide ((l1.map DetectionBox.center_y).sum / (l1.length : ℚ) ≤
          (l2.map DetectionBox.center_y).sum / (l2.length : ℚ))) with hL2
    cases he : L2[i]? with
    | none =>
      rw [he] at hl
      simp at hl
    | some l0 =>
      rw [he] at hl
      simp only [Option.map_some', Option.some.injEq] at hl
      subst hl
      simp only [List.mem_map] at hb
      obtain ⟨c, _, rfl⟩ := hb
      simp

/-- C4: for every input whose box ids are pairwise distinct, the lines
returned by `group_into_lines` form a partition of the input: the ids of
the flattened output are a permutation of the input ids (so the union of
the lines is the input box set), distinct lines share no box, and every
box of line `i` carries `line_id = i`. -/
theorem C4_partition (boxes : List DetectionBox) (τ : ℚ)
    (hnd : (boxes.map DetectionBox.id).Nodup) :
    ((group_into_lines boxes τ).flatten.map DetectionBox.id).Perm
      (boxes.map DetectionBox.id) ∧
    (group_into_lines boxes τ).Pairwise
      (fun l1 l2 => ∀ b ∈ l1, ∀ c ∈ l2, b.id ≠ c.id) ∧
    (∀ (i : ℕ) (l : List DetectionBox), (group_into_lines boxes τ)[i]? = some l →
      ∀ b ∈ l, b.line_id = (i : ℤ)) := by
  obtain ⟨hnodup, hmem, _⟩ := group_into_lines_ids boxes τ
  exact ⟨(List.perm_ext_iff_of_nodup hnodup hnd).mpr hmem,
    pairwise_disjoint_of_flatten_nodup _ hnodup,
    group_into_lines_line_ids boxes τ⟩

/-- The two boxes of the spec's concrete clustering scenario (§8). -/
def boxA : DetectionBox :=
  { id := 0, x1 := 0, y1 := 0, x2 := 50, y2 := 20, confidence := 1, ocr_text := "A" }

/-- Second box of the spec's concrete clustering scenario. -/
def boxB : DetectionBox :=
  { id := 1, x1 := 60, y1 := 2, x2 := 110, y2 := 22, confidence := 1, ocr_text := "B" }

/-- Witness for `C4_partition` on the spec's two-box scenario. -/
theorem C4_partition_witness :
    (([boxA, boxB] : List DetectionBox).map DetectionBox.id).Nodup ∧
    (((group_into_lines [boxA, boxB] (1 / 2)).flatten.map DetectionBox.id).Perm
      (([boxA, boxB] : List DetectionBox).map DetectionBox.id) ∧
    (group_into_lines [boxA, boxB] (1 / 2)).Pairwise
      (fun l1 l2 => ∀ b ∈ l1, ∀ c ∈ l2, b.id ≠ c.id) ∧
    (∀ (i : ℕ) (l : List DetectionBox),
      (group_into_lines [boxA, boxB] (1 / 2))[i]? = some l →
      ∀ b ∈ l, b.line_id = (i : ℤ))) :=
  ⟨by simp [boxA, boxB], C4_partition [boxA, boxB] (1 / 2) (by simp [boxA, boxB])⟩

/-- All fields of a detection box except `line_id` (which is normalised
to `0`): two boxes agree on `stripLineId` exactly when they agree on
`id`, all four coordinates, `confidence`, `ocr_text` and
`ocr_confidence`. -/
def stripLineId (b : DetectionBox) : DetectionBox := { b with line_id := 0 }

/-- C10: `group_into_lines` changes only the `line_id` field: every
output box equals an input box with only its `line_id` replaced, and for
distinct-id inputs the outputs stripped of `line_id` are a permutation of
the inputs stripped of `line_id` — coordinates, confidence, OCR text,
OCR confidence and id are all preserved. -/
theorem C10_only_line_id_changes (boxes : List DetectionBox) (τ : ℚ)
    (hnd : (boxes.map DetectionBox.id).Nodup) :
    (∀ b2 ∈ (group_into_lines boxes τ).flatten, ∃ c ∈ boxes,
      b2 = { c with line_id := b2.line_id }) ∧
    ((group_into_lines boxes τ).flatten.map stripLineId).Perm
      (boxes.map stripLineId) := by
  obtain ⟨hnodup, hmem, hframe⟩ := group_into_lines_ids boxes τ
  refine ⟨hframe, ?_⟩
  have hidstrip : ∀ (l : List DetectionBox),
      (l.map stripLineId).map DetectionBox.id = l.map DetectionBox.id := by
    intro l
    rw [List.map_map]
    rfl
  have hndL : ((group_into_lines boxes τ).flatten.map stripLineId).Nodup :=
    List.Nodup.of_map DetectionBox.id (by rw [hidstrip]; exact hnodup)
  have hndR : (boxes.map stripLineId).Nodup :=
    List.Nodup.of_map DetectionBox.id (by rw [hidstrip]; exact hnd)
  refine (List.perm_ext_iff_of_nodup hndL hndR).mpr ?_
  intro x
  constructor
  · intro hx
    obtain ⟨b2, hb2, rfl⟩ := List.mem_map.mp hx
    obtain ⟨c, hc, hbc⟩ := hframe b2 hb2
    have heq : stripLineId b2 = stripLineId c := by rw [hbc]; rfl
    rw [heq]
    exact List.mem_map_of_mem _ hc
  · intro hx
    obtain ⟨c, hc, rfl⟩ := List.mem_map.mp hx
    have hcid : c.id ∈ (group_into_lines boxes τ).flatten.map DetectionBox.id :=
      (hmem c.id).mpr (List.mem_map_of_mem _ hc)
    obtain ⟨b2, hb2, hb2id⟩ := List.mem_map.mp hcid
    obtain ⟨c2, hc2, hbc2⟩ := hframe b2 hb2
    have hc2id : c2.id = c.id := by
      rw [hbc2] at hb2id
      exact hb2id
    have hceq : c2 = c := List.inj_on_of_nodup_map hnd hc2 hc hc2id
    subst hceq
    have heq : stripLineId b2 = stripLineId c2 := by rw [hbc2]; rfl
    rw [← heq]
    exact List.mem_map_of_mem _ hb2

/-- Witness for `C10_only_line_id_changes` on the spec's two-box
scenario. -/
theorem C10_only_line_id_changes_witness :
    (([boxA, boxB] : List DetectionBox).map DetectionBox.id).Nodup ∧
    ((∀ b2 ∈ (group_into_lines [boxA, boxB] (1 / 2)).flatten, ∃ c ∈ [boxA, boxB],
      b2 = { c with line_id := b2.line_id }) ∧
    ((group_into_lines [boxA, boxB] (1 / 2)).flatten.map stripLineId).Perm
      (([boxA, boxB] : List DetectionBox).map stripLineId)) :=
  ⟨by simp [boxA, boxB],
   C10_only_line_id_changes [boxA, boxB] (1 / 2) (by simp [boxA, boxB])⟩

/-- A raw detection record whose box `[10, 10, 10, 20]` has zero width
(`x2 = x1`), violating the box invariant `x2 > x1`. -/
def badRaw : RawDet := ⟨none, some (10, 10, 10, 20), some 1, some "bad", none⟩

/-- A raw detection record with valid geometry. -/
def goodRaw : RawDet := ⟨none, some (0, 0, 50, 20), some 1, some "good", none⟩

/-- The parse of `badRaw`. -/
def badBox : DetectionBox :=
  { id := 0, x1 := 10, y1 := 10, x2 := 10, y2 := 20, confidence := 1, ocr_text := "bad" }

/-- The parse of `goodRaw`. -/
def goodBox : DetectionBox :=
  { id := 1, x1 := 0, y1 := 0, x2 := 50, y2 := 20, confidence := 1, ocr_text := "good" }

theorem group_bad_good :
    group_into_lines (parse_detections [badRaw, goodRaw]) (1 / 2) =
      [[{ badBox with line_id := 0 }, { goodBox with line_id := 0 }]] := by
  rw [show parse_detections [badRaw, goodRaw] = [badBox, goodBox] from rfl]
  rw [group_into_lines, if_neg (by simp)]
  dsimp only
  rw [show sortByCenterY [badBox, goodBox] = [goodBox, badBox] from by
    rw [sortByCenterY, mergeSort_pair]
    norm_num [DetectionBox.center_y, badBox, goodBox]]
  rw [show groupOuter (1 / 2) [goodBox, badBox] [goodBox, badBox] [] = [[badBox, goodBox]]
      from by
    rw [groupOuter, if_neg (by simp [goodBox])]
    rw [show addOthers (1 / 2) [goodBox, badBox] [goodBox] [goodBox.id] =
        ([goodBox, badBox], [badBox.id, goodBox.id]) from by
      rw [addOthers, if_pos (List.mem_singleton_self _)]
      rw [addOthers]
      norm_num [DetectionBox.vertical_overlap, DetectionBox.height, badBox, goodBox, addOthers]]
    dsimp only
    rw [mergeSort_pair]
    norm_num [DetectionBox.center_x, badBox, goodBox]
    rw [groupOuter, if_pos (by simp), groupOuter]]
  rw [List.mergeSort_singleton]
  rfl

/-- C3 (code bug): contrary to §4.1/§7 of the spec, neither
`parse_detections` nor `group_into_lines` rejects a box with invalid
geometry — the zero-width box `[10, 10, 10, 20]` is parsed and silently
clustered into the output line next to the valid box of the same batch,
instead of being rejected before clustering. -/
theorem C3_invalid_box_clustered :
    badBox.width ≤ 0 ∧
    badBox ∈ parse_detections [badRaw, goodRaw] ∧
    (∃ l ∈ group_into_lines (parse_detections [badRaw, goodRaw]) (1 / 2),
      { badBox with line_id := 0 } ∈ l) := by
  refine ⟨by norm_num [DetectionBox.width, badBox], by simp [parse_detections,
    parse_detections.go, badRaw, goodRaw, badBox, goodBox], ?_⟩
  rw [group_bad_good]
  exact ⟨_, List.mem_singleton_self _, List.mem_cons_self _ _⟩
